import Mathlib

/-!
Shallow embedding of the `rsroll` rolling-hash / content-defined-chunking
library (source files `src/bup.rs` and `src/gear.rs`), together with proofs
of the specification claims about it.

Machine integers are modelled as `Nat` with explicit reduction modulo
`2 ^ 64` (for `usize` / `u64` wrapping arithmetic) and modulo `2 ^ 32`
(for the `u32` digest of `Bup`).  Bytes are modelled as `Nat`; where a
claim depends on the `u8` range, the hypothesis `b < 256` is carried
explicitly.  Fallible construction (`assert!` in the source) is modelled
with `Option`.
-/

namespace Bup

/-- Window size exponent, `WINDOW_BITS` in `bup.rs`. -/
def WINDOW_BITS : Nat := 6

/-- Window size, `WINDOW_SIZE = 1 << WINDOW_BITS` in `bup.rs`. -/
def WINDOW_SIZE : Nat := 1 <<< WINDOW_BITS

/-- Character offset constant, `CHAR_OFFSET` in `bup.rs`. -/
def CHAR_OFFSET : Nat := 31

/-- Default chunk size exponent, `CHUNK_BITS` in `bup.rs`. -/
def CHUNK_BITS : Nat := 13

/-- State of the `Bup` rolling-hash engine (`struct Bup` in `bup.rs`).
The fixed-size array `window: [u8; WINDOW_SIZE]` is modelled as a total
function from indices to byte values; accesses in the source are at
`wofs`, which the code keeps below `WINDOW_SIZE`. -/
structure State where
  s1 : Nat
  s2 : Nat
  window : Nat → Nat
  wofs : Nat
  chunk_bits : Nat

/-- The `Default` instance for `Bup` in `bup.rs`. -/
def default : State :=
  { s1 := WINDOW_SIZE * CHAR_OFFSET
    s2 := WINDOW_SIZE * (WINDOW_SIZE - 1) * CHAR_OFFSET
    window := fun _ => 0
    wofs := 0
    chunk_bits := CHUNK_BITS }

/-- The state built by `Bup::new_with_chunk_bits` after its assertion has
passed (the record expression `Bup { chunk_bits, ..Default::default() }`). -/
def init (cb : Nat) : State :=
  { default with chunk_bits := cb }

/-- `Bup::new` in `bup.rs`. -/
def new : State := default

/-- `Bup::new_with_chunk_bits` in `bup.rs`: `assert!(chunk_bits < 32)` then
construct.  The failed assertion (a panic) is modelled as `none`. -/
def new_with_chunk_bits (cb : Nat) : Option State :=
  if cb < 32 then some (init cb) else none

/-- `Bup::add` in `bup.rs`: wrapping `usize` updates of the accumulators,
in source statement order
(`s1 += add; s1 -= drop; s2 += s1; s2 -= WINDOW_SIZE * (drop + CHAR_OFFSET)`). -/
def add (s : State) (drop addb : Nat) : State :=
  let s1 := (s.s1 + addb) % 2 ^ 64
  let s1 := (s1 + (2 ^ 64 - drop % 2 ^ 64)) % 2 ^ 64
  let s2 := (s.s2 + s1) % 2 ^ 64
  let s2 := (s2 + (2 ^ 64 - (WINDOW_SIZE * (drop + CHAR_OFFSET)) % 2 ^ 64)) % 2 ^ 64
  { s with s1 := s1, s2 := s2 }

/-- `Bup::roll_byte` in `bup.rs`: read the byte about to be evicted, update
the accumulators, store the new byte, advance the circular offset. -/
def roll_byte (s : State) (newch : Nat) : State :=
  let prevch := s.window s.wofs
  let s' := add s prevch newch
  { s' with
      window := fun j => if j = s.wofs then newch else s.window j
      wofs := (s.wofs + 1) % WINDOW_SIZE }

/-- Iterated `roll_byte` over a buffer, in order (the `RollingHash::roll`
default behaviour). -/
def roll_bytes (s : State) (buf : List Nat) : State :=
  buf.foldl roll_byte s

/-- `Bup::digest` in `bup.rs`: `((s1 as u32) << 16) | ((s2 as u32) & 0xffff)`,
with `u32` truncating casts and wrapping shift modelled by `% 2 ^ 32`. -/
def digest (s : State) : Nat :=
  (((s.s1 % 2 ^ 32) <<< 16) % 2 ^ 32) ||| ((s.s2 % 2 ^ 32) &&& 0xffff)

/-- `Bup::reset` in `bup.rs`: keep `chunk_bits`, restore everything else
from `Default::default()`. -/
def reset (s : State) : State :=
  { default with chunk_bits := s.chunk_bits }

/-- The chunk mask `(1 << chunk_bits) - 1` computed by `Bup::find_chunk`. -/
def chunk_mask (cb : Nat) : Nat := (1 <<< cb) - 1

/-- The boundary test of `Bup::find_chunk`:
`digest() & chunk_mask == chunk_mask`. -/
def boundary (s : State) : Bool :=
  digest s &&& chunk_mask s.chunk_bits == chunk_mask s.chunk_bits

/-- The scanning loop of `Bup::find_chunk`, returning the logical offset of
the found boundary (if any) together with the final engine state. -/
def find_chunk_idx (s : State) : List Nat → Option Nat × State
  | [] => (none, s)
  | b :: rest =>
    let s' := roll_byte s b
    if boundary s' then (some 0, reset s')
    else
      match find_chunk_idx s' rest with
      | (some i, t) => (some (i + 1), t)
      | (none, t) => (none, t)

/-- `Bup::find_chunk` in `bup.rs`: on a boundary at offset `i` return the
split `(&buf[..i+1], &buf[i+1..])` and the reset state, otherwise `None`
with the state rolled through the whole buffer. -/
def find_chunk (s : State) (buf : List Nat) :
    Option (List Nat × List Nat) × State :=
  match find_chunk_idx s buf with
  | (some i, t) => (some (buf.take (i + 1), buf.drop (i + 1)), t)
  | (none, t) => (none, t)

/-- The loop of `Bup::count_bits` in `bup.rs`: repeatedly shift `rsum`
right; stop as soon as the next bit is `0`, counting the `1` bits passed.
Note the shift happens before the test, which skips one bit. -/
def count_bits_loop (bits rsum : Nat) : Nat :=
  let r := rsum >>> 1
  if r &&& 1 = 0 then bits else count_bits_loop (bits + 1) r
termination_by rsum
decreasing_by
  rename_i h
  rw [Nat.and_one_is_mod] at h
  simp only [Nat.shiftRight_one] at h ⊢
  omega

/-- `Bup::count_bits` in `bup.rs`. -/
def count_bits (s : State) : Nat :=
  count_bits_loop s.chunk_bits (digest s >>> s.chunk_bits)

end Bup

namespace Gear

/-- Default chunk size exponent, `CHUNK_BITS` in `gear.rs`. -/
def CHUNK_BITS : Nat := 13

/-- Type of the gear lookup table `G`.

Modelled from the spec: the table of 256 constant `u64` values included
from `_gear_rand.rs`, which is not among the provided source files; the
spec describes it only as a fixed table of random 64-bit constants, so all
definitions and theorems are parameterised by an arbitrary table. -/
def Table := Nat → Nat

/-- State of the `Gear` rolling-hash engine (`struct Gear` in `gear.rs`). -/
structure State where
  digest : Nat
  chunk_bits : Nat
deriving DecidableEq

/-- The `Default` instance for `Gear` in `gear.rs`. -/
def default : State := { digest := 0, chunk_bits := CHUNK_BITS }

/-- The state built by `Gear::new_with_chunk_bits` after its assertion has
passed. -/
def init (cb : Nat) : State := { default with chunk_bits := cb }

/-- `Gear::new` in `gear.rs`. -/
def new : State := default

/-- `Gear::new_with_chunk_bits` in `gear.rs`: `assert!(chunk_bits < 32)`
then construct; the failed assertion is modelled as `none`. -/
def new_with_chunk_bits (cb : Nat) : Option State :=
  if cb < 32 then some (init cb) else none

/-- `Gear::roll_byte` in `gear.rs`:
`digest = (digest << 1).wrapping_add(G[b])` on `u64`. -/
def roll_byte (g : Table) (s : State) (b : Nat) : State :=
  { s with digest := ((s.digest <<< 1) % 2 ^ 64 + g b) % 2 ^ 64 }

/-- `Gear::roll` in `gear.rs`: the manually unrolled bulk update over a
local `digest` variable, written back at the end. -/
def roll (g : Table) (s : State) (buf : List Nat) : State :=
  { s with
      digest := buf.foldl (fun d b => ((d <<< 1) % 2 ^ 64 + g b) % 2 ^ 64) s.digest }

/-- Iterated `roll_byte` over a buffer, in order. -/
def roll_bytes (g : Table) (s : State) (buf : List Nat) : State :=
  buf.foldl (roll_byte g) s

/-- `Gear::digest` in `gear.rs`. -/
def digest (s : State) : Nat := s.digest

/-- `Gear::reset` in `gear.rs`: keep `chunk_bits`, restore the rest from
`Default::default()`. -/
def reset (s : State) : State :=
  { default with chunk_bits := s.chunk_bits }

/-- The mask `!0u64 << (DIGEST_SIZE - chunk_bits)` computed by
`Gear::find_chunk` (`DIGEST_SIZE = 64`). -/
def mask (cb : Nat) : Nat := ((2 ^ 64 - 1) <<< (64 - cb)) % 2 ^ 64

/-- The boundary test of `Gear::find_chunk`: `digest & mask == 0` with the
mask derived from the state's own `chunk_bits`. -/
def boundary (s : State) : Bool :=
  s.digest &&& mask s.chunk_bits == 0

/-- The scanning loop of `Gear::find_chunk`, carrying the local `digest`
variable of the source; returns the boundary offset (if any) and the final
engine state. -/
def find_chunk_idx_aux (g : Table) (cb msk d : Nat) :
    List Nat → Option Nat × State
  | [] => (none, { digest := d, chunk_bits := cb })
  | b :: rest =>
    let d' := ((d <<< 1) % 2 ^ 64 + g b) % 2 ^ 64
    if d' &&& msk == 0 then
      (some 0, reset { digest := d', chunk_bits := cb })
    else
      match find_chunk_idx_aux g cb msk d' rest with
      | (some i, t) => (some (i + 1), t)
      | (none, t) => (none, t)

/-- Boundary-offset form of `Gear::find_chunk`. -/
def find_chunk_idx (g : Table) (s : State) (buf : List Nat) :
    Option Nat × State :=
  find_chunk_idx_aux g s.chunk_bits (mask s.chunk_bits) s.digest buf

/-- `Gear::find_chunk` in `gear.rs` (the `CDC` impl): mask from the engine's
`chunk_bits`, split on boundary, otherwise write back the rolled digest. -/
def find_chunk (g : Table) (s : State) (buf : List Nat) :
    Option (List Nat × List Nat) × State :=
  match find_chunk_idx g s buf with
  | (some i, t) => (some (buf.take (i + 1), buf.drop (i + 1)), t)
  | (none, t) => (none, t)

/-- The scanning loop of `Gear::find_chunk_mask` (a caller-supplied mask);
textually its own loop in the source. -/
def find_chunk_mask_aux (g : Table) (cb msk d : Nat) :
    List Nat → Option Nat × State
  | [] => (none, { digest := d, chunk_bits := cb })
  | b :: rest =>
    let d' := ((d <<< 1) % 2 ^ 64 + g b) % 2 ^ 64
    if d' &&& msk == 0 then
      (some 0, reset { digest := d', chunk_bits := cb })
    else
      match find_chunk_mask_aux g cb msk d' rest with
      | (some i, t) => (some (i + 1), t)
      | (none, t) => (none, t)

/-- `Gear::find_chunk_mask` in `gear.rs`. -/
def find_chunk_mask (g : Table) (s : State) (msk : Nat) (buf : List Nat) :
    Option (List Nat × List Nat) × State :=
  match find_chunk_mask_aux g s.chunk_bits msk s.digest buf with
  | (some i, t) => (some (buf.take (i + 1), buf.drop (i + 1)), t)
  | (none, t) => (none, t)

/-- The scanning loop of `Gear::find_chunk_edge_cond`: the condition is an
arbitrary function of the whole engine state, evaluated after the rolled
digest has been written back into `self`. -/
def find_chunk_edge_cond_aux (g : Table) (cb : Nat) (cond : State → Bool)
    (d : Nat) : List Nat → Option Nat × State
  | [] => (none, { digest := d, chunk_bits := cb })
  | b :: rest =>
    let d' := ((d <<< 1) % 2 ^ 64 + g b) % 2 ^ 64
    if cond { digest := d', chunk_bits := cb } then
      (some 0, reset { digest := d', chunk_bits := cb })
    else
      match find_chunk_edge_cond_aux g cb cond d' rest with
      | (some i, t) => (some (i + 1), t)
      | (none, t) => (none, t)

/-- `Gear::find_chunk_edge_cond` in `gear.rs`. -/
def find_chunk_edge_cond (g : Table) (s : State) (cond : State → Bool)
    (buf : List Nat) : Option (List Nat × List Nat) × State :=
  match find_chunk_edge_cond_aux g s.chunk_bits cond s.digest buf with
  | (some i, t) => (some (buf.take (i + 1), buf.drop (i + 1)), t)
  | (none, t) => (none, t)

end Gear

/-! ### Shared helper lemmas -/

/-- Unfolding of the bulk gear recurrence as iterated `roll_byte`. -/
theorem Gear.roll_bytes_digest (g : Gear.Table) (buf : List Nat) :
    ∀ s : Gear.State,
      Gear.roll_bytes g s buf =
        { s with
            digest :=
              buf.foldl (fun d b => ((d <<< 1) % 2 ^ 64 + g b) % 2 ^ 64) s.digest } := by
  induction buf with
  | nil => intro s; rfl
  | cons b rest ih =>
    intro s
    have h := ih (Gear.roll_byte g s b)
    simpa [Gear.roll_bytes, Gear.roll_byte] using h

/-! ### Claim C1 -/

/-- Claim C1, counterexample: the claim states that `Gear` construction
succeeds for every `chunk_bits < 64`, but `32 < 64` and construction with
`chunk_bits = 32` is rejected by the code's `assert!(chunk_bits < 32)`. -/
theorem c1_counterexample : 32 < 64 ∧ Gear.new_with_chunk_bits 32 = none :=
  ⟨by norm_num, rfl⟩

/-- Claim C1 (amended): `new_with_chunk_bits` fails fast if and only if
`chunk_bits` is at least `32`, for BOTH engines: `Bup` succeeds for every
`chunk_bits < 32` and rejects `chunk_bits >= 32`, and `Gear` likewise
succeeds for every `chunk_bits < 32` and rejects `chunk_bits >= 32`. -/
theorem c1_theorem (cb : Nat) :
    (cb < 32 → (Bup.new_with_chunk_bits cb).isSome = true) ∧
    (32 ≤ cb → Bup.new_with_chunk_bits cb = none) ∧
    (cb < 32 → (Gear.new_with_chunk_bits cb).isSome = true) ∧
    (32 ≤ cb → Gear.new_with_chunk_bits cb = none) := by
  refine ⟨fun h => ?_, fun h => ?_, fun h => ?_, fun h => ?_⟩ <;>
    simp [Bup.new_with_chunk_bits, Gear.new_with_chunk_bits, h] <;> omega

/-- Claim C1, witness: `Bup` construction succeeds at `chunk_bits = 5` and
`Gear` construction is rejected at `chunk_bits = 40`. -/
theorem c1_witness :
    (Bup.new_with_chunk_bits 5).isSome = true ∧
    Gear.new_with_chunk_bits 40 = none :=
  ⟨(c1_theorem 5).1 (by norm_num), (c1_theorem 40).2.2.2 (by norm_num)⟩

/-! ### Claim C5 -/

/-- Claim C5: for the `Gear` engine, the optimised bulk `roll` is
semantically equivalent to iterating `roll_byte` over every byte of the
buffer in order, for every table, starting state and buffer. -/
theorem c5_theorem (g : Gear.Table) (s : Gear.State) (buf : List Nat) :
    Gear.roll g s buf = List.foldl (Gear.roll_byte g) s buf := by
  have h := Gear.roll_bytes_digest g buf s
  simpa [Gear.roll_bytes, Gear.roll] using h.symm

/-- Claim C5, witness: concrete evaluation of the equivalence on a small
table, state and buffer. -/
theorem c5_witness :
    Gear.roll (fun b => b + 3) ⟨7, 13⟩ [1, 2, 255] =
      List.foldl (Gear.roll_byte (fun b => b + 3)) ⟨7, 13⟩ [1, 2, 255] :=
  c5_theorem (fun b => b + 3) ⟨7, 13⟩ [1, 2, 255]

/-! ### Claim C7 -/

/-- Claim C7: for both engines, `reset` restores exactly the freshly
constructed state with the same `chunk_bits`: the whole state record is
equal bit for bit, the digest agrees with a fresh engine's digest, the
`chunk_bits` parameter survives, and for constructible `chunk_bits` the
constructor returns precisely the reset state. -/
theorem c7_theorem (s : Bup.State) (t : Gear.State) :
    Bup.reset s = Bup.init s.chunk_bits ∧
    (Bup.reset s).chunk_bits = s.chunk_bits ∧
    Bup.digest (Bup.reset s) = Bup.digest (Bup.init s.chunk_bits) ∧
    (s.chunk_bits < 32 →
      Bup.new_with_chunk_bits s.chunk_bits = some (Bup.reset s)) ∧
    Gear.reset t = Gear.init t.chunk_bits ∧
    (Gear.reset t).chunk_bits = t.chunk_bits ∧
    Gear.digest (Gear.reset t) = Gear.digest (Gear.init t.chunk_bits) ∧
    (t.chunk_bits < 32 →
      Gear.new_with_chunk_bits t.chunk_bits = some (Gear.reset t)) := by
  refine ⟨rfl, rfl, rfl, fun h => ?_, rfl, rfl, rfl, fun h => ?_⟩ <;>
    simp [Bup.new_with_chunk_bits, Gear.new_with_chunk_bits, h] <;> rfl

/-- Claim C7, witness: the reset of a concrete dirty state of each engine
equals the fresh construction with the same `chunk_bits`. -/
theorem c7_witness :
    Bup.reset ⟨1, 2, fun _ => 3, 4, 5⟩ = Bup.init 5 ∧
    Gear.reset ⟨99, 7⟩ = Gear.init 7 ∧
    Gear.new_with_chunk_bits 7 = some (Gear.reset ⟨99, 7⟩) := by
  have h := c7_theorem ⟨1, 2, fun _ => 3, 4, 5⟩ ⟨99, 7⟩
  exact ⟨h.1, h.2.2.2.2.1, h.2.2.2.2.2.2.2 (by norm_num)⟩

/-! ### Claim C3 -/

/-- Characterisation of the `count_bits` loop: if the low `k` bits of `r`
are ones and bit `k` is zero, the loop adds `k - 1` (not `k`) to `bits`,
because the shift before the first test skips one bit. -/
theorem bup_count_loop_spec :
    ∀ k bits r : Nat, 1 ≤ k → r % 2 ^ (k + 1) = 2 ^ k - 1 →
      Bup.count_bits_loop bits r = bits + k - 1 := by
  intro k
  induction k with
  | zero => intro bits r h; omega
  | succ k ih =>
    intro bits r _ hr
    rcases Nat.eq_zero_or_pos k with h0 | hpos
    · subst h0
      rw [Bup.count_bits_loop]
      simp only [Nat.shiftRight_one, Nat.and_one_is_mod]
      rw [if_pos (by omega)]
      omega
    · have hA : (1 : Nat) ≤ 2 ^ k := Nat.one_le_two_pow
      have hd : r / 2 % 2 ^ (k + 1) = r % (2 * 2 ^ (k + 1)) / 2 :=
        Nat.div_mod_eq_mod_mul_div r 2 (2 ^ (k + 1))
      have e2 : 2 * 2 ^ (k + 1) = 2 ^ (k + 1 + 1) := by ring
      have hd' : r / 2 % 2 ^ (k + 1) = 2 ^ k - 1 := by
        rw [hd, e2, hr, pow_succ]
        omega
      have hdvd : (2 : Nat) ∣ 2 ^ (k + 1) := dvd_pow_self 2 (Nat.succ_ne_zero k)
      have hb : r / 2 % 2 = 1 := by
        have hmm := Nat.mod_mod_of_dvd (r / 2) hdvd
        have hdvd2 : (2 : Nat) ∣ 2 ^ k := dvd_pow_self 2 (by omega)
        omega
      rw [Bup.count_bits_loop]
      simp only [Nat.shiftRight_one, Nat.and_one_is_mod]
      rw [if_neg (by omega)]
      have := ih (bits + 1) (r / 2) hpos hd'
      omega

/-- Claim C3: for every `Bup` engine whose digest has its low `chunk_bits`
bits all ones, exactly `k ≥ 1` further contiguous one bits immediately
above, and a zero bit above those, `count_bits` returns
`chunk_bits + k - 1`, reproducing the documented skipped bit. -/
theorem c3_theorem (s : Bup.State) (k : Nat) (hk : 1 ≤ k)
    (hd : Bup.digest s % 2 ^ (s.chunk_bits + k + 1) = 2 ^ (s.chunk_bits + k) - 1) :
    Bup.count_bits s = s.chunk_bits + k - 1 := by
  unfold Bup.count_bits
  apply bup_count_loop_spec k _ _ hk
  have hA : 0 < 2 ^ s.chunk_bits := Nat.pos_pow_of_pos _ (by norm_num)
  have hB : (1 : Nat) ≤ 2 ^ k := Nat.one_le_two_pow
  rw [Nat.shiftRight_eq_div_pow]
  have hd2 : Bup.digest s / 2 ^ s.chunk_bits % 2 ^ (k + 1) =
      Bup.digest s % (2 ^ s.chunk_bits * 2 ^ (k + 1)) / 2 ^ s.chunk_bits :=
    Nat.div_mod_eq_mod_mul_div _ _ _
  have e1 : 2 ^ s.chunk_bits * 2 ^ (k + 1) = 2 ^ (s.chunk_bits + k + 1) := by
    rw [← pow_add]; ring_nf
  have e3 : 2 ^ (s.chunk_bits + k) = 2 ^ s.chunk_bits * 2 ^ k := by
    rw [← pow_add]
  rw [hd2, e1, hd, e3]
  obtain ⟨B, hBeq⟩ : ∃ B, 2 ^ k = B + 1 := ⟨2 ^ k - 1, by omega⟩
  rw [hBeq]
  have h1 : 2 ^ s.chunk_bits * (B + 1) - 1 =
      2 ^ s.chunk_bits * B + (2 ^ s.chunk_bits - 1) := by
    rw [Nat.mul_add, Nat.mul_one]; omega
  rw [h1, Nat.mul_add_div hA]
  rw [Nat.div_eq_of_lt (by omega)]
  omega

/-- Claim C3, witness: a `Bup` state with `chunk_bits = 2` whose digest is
`15` (low `2 + 2` bits ones, bit `4` zero) has `count_bits = 3`, i.e.
`chunk_bits + k - 1` for `k = 2`. -/
theorem c3_witness :
    (1 : Nat) ≤ 2 ∧
    Bup.digest ⟨0, 15, fun _ => 0, 0, 2⟩ % 2 ^ (2 + 2 + 1) = 2 ^ (2 + 2) - 1 ∧
    Bup.count_bits ⟨0, 15, fun _ => 0, 0, 2⟩ = 2 + 2 - 1 :=
  ⟨by norm_num, by decide, c3_theorem ⟨0, 15, fun _ => 0, 0, 2⟩ 2 (by norm_num) (by decide)⟩

/-! ### Claim C4 -/

/-- Arithmetic characterisation of the `Bup` digest packing: `s1`'s low 16
bits in the high half, `s2`'s low 16 bits in the low half. -/
theorem bup_digest_eq (s : Bup.State) :
    Bup.digest s = s.s1 % 2 ^ 16 * 2 ^ 16 + s.s2 % 2 ^ 16 := by
  unfold Bup.digest
  have h1 : ((s.s1 % 2 ^ 32) <<< 16) % 2 ^ 32 = s.s1 % 2 ^ 16 * 2 ^ 16 := by
    rw [Nat.shiftLeft_eq]
    omega
  have h2 : (s.s2 % 2 ^ 32) &&& 0xffff = s.s2 % 2 ^ 16 := by
    have h := Nat.and_pow_two_sub_one_eq_mod (s.s2 % 2 ^ 32) 16
    have e : (0xffff : Nat) = 2 ^ 16 - 1 := by norm_num
    rw [e, h]
    omega
  rw [h1, h2]
  have h3 : s.s2 % 2 ^ 16 < 2 ^ 16 := Nat.mod_lt _ (by norm_num)
  have h4 := Nat.mul_add_lt_is_or h3 (s.s1 % 2 ^ 16)
  rw [Nat.mul_comm (2 ^ 16) (s.s1 % 2 ^ 16)] at h4
  exact h4.symm

/-- Upper bound for the `Bup` digest: it is a 32-bit value. -/
theorem bup_digest_lt (s : Bup.State) : Bup.digest s < 2 ^ 32 := by
  rw [bup_digest_eq]
  have h1 : s.s1 % 2 ^ 16 < 2 ^ 16 := Nat.mod_lt _ (by norm_num)
  have h2 : s.s2 % 2 ^ 16 < 2 ^ 16 := Nat.mod_lt _ (by norm_num)
  omega

/-- Rolling bytes from a state whose window is zero at and above `wofs`
keeps zeros above the advanced offset, as long as the window does not fill.
In particular each of the first `WINDOW_SIZE` rolls evicts a zero byte. -/
theorem bup_roll_window_zero :
    ∀ (bs : List Nat) (s : Bup.State), s.wofs + bs.length < 64 →
      (∀ j, s.wofs ≤ j → j < 64 → s.window j = 0) →
      (Bup.roll_bytes s bs).wofs = s.wofs + bs.length ∧
      (∀ j, s.wofs + bs.length ≤ j → j < 64 →
        (Bup.roll_bytes s bs).window j = 0) := by
  intro bs
  induction bs with
  | nil =>
    intro s h hw
    exact ⟨by simp [Bup.roll_bytes], by simpa [Bup.roll_bytes] using hw⟩
  | cons b rest ih =>
    intro s h hw
    have hstep : Bup.roll_bytes s (b :: rest) =
        Bup.roll_bytes (Bup.roll_byte s b) rest := rfl
    have hwofs : (Bup.roll_byte s b).wofs = s.wofs + 1 := by
      simp only [Bup.roll_byte]
      show (s.wofs + 1) % Bup.WINDOW_SIZE = s.wofs + 1
      have : Bup.WINDOW_SIZE = 64 := rfl
      rw [this]
      exact Nat.mod_eq_of_lt (by simp at h; omega)
    have hwin : ∀ j, (Bup.roll_byte s b).wofs ≤ j → j < 64 →
        (Bup.roll_byte s b).window j = 0 := by
      intro j hj hj64
      rw [hwofs] at hj
      simp only [Bup.roll_byte]
      rw [if_neg (by omega)]
      exact hw j (by omega) hj64
    have hlen : (Bup.roll_byte s b).wofs + rest.length < 64 := by
      rw [hwofs]; simp at h; omega
    have := ih (Bup.roll_byte s b) hlen hwin
    rw [hstep]
    constructor
    · rw [this.1, hwofs]; simp; omega
    · intro j hj hj64
      apply this.2 j _ hj64
      rw [hwofs]; simp at hj ⊢; omega

/-- Claim C4: `Bup.roll_byte` updates the accumulators exactly as
`s1 += new - old` and `s2 += s1 - 64 * (old + 31)` in wrapping unsigned
arithmetic, where `old` is the byte in the window slot being overwritten
(zero on each of the first 64 calls from a fresh engine); it stores the new
byte in that slot and advances the offset modulo 64; and the digest packs
`s1`'s low 16 bits above `s2`'s low 16 bits as a 32-bit value. -/
theorem c4_theorem (s : Bup.State) (b cb : Nat) (bs : List Nat)
    (hlen : bs.length < 64) :
    (Bup.roll_byte s b).s1 =
      (s.s1 + b + (2 ^ 64 - s.window s.wofs % 2 ^ 64)) % 2 ^ 64 ∧
    (Bup.roll_byte s b).s2 =
      (s.s2 + (Bup.roll_byte s b).s1 +
        (2 ^ 64 - 64 * (s.window s.wofs + 31) % 2 ^ 64)) % 2 ^ 64 ∧
    (Bup.roll_byte s b).window s.wofs = b ∧
    (∀ j, j ≠ s.wofs → (Bup.roll_byte s b).window j = s.window j) ∧
    (Bup.roll_byte s b).wofs = (s.wofs + 1) % 64 ∧
    Bup.digest s = s.s1 % 2 ^ 16 * 2 ^ 16 + s.s2 % 2 ^ 16 ∧
    Bup.digest s < 2 ^ 32 ∧
    (Bup.roll_bytes (Bup.init cb) bs).window
      (Bup.roll_bytes (Bup.init cb) bs).wofs = 0 := by
  refine ⟨?_, ?_, ?_, ?_, ?_, bup_digest_eq s, bup_digest_lt s, ?_⟩
  · simp only [Bup.roll_byte, Bup.add]
    omega
  · simp only [Bup.roll_byte, Bup.add]
    have e : Bup.WINDOW_SIZE * (s.window s.wofs + Bup.CHAR_OFFSET) =
        64 * (s.window s.wofs + 31) := rfl
    rw [e]
    omega
  · simp [Bup.roll_byte]
  · intro j hj
    simp [Bup.roll_byte, hj]
  · rfl
  · have hz : ∀ j, (Bup.init cb).wofs ≤ j → j < 64 → (Bup.init cb).window j = 0 :=
      fun j _ _ => rfl
    have hwofs0 : (Bup.init cb).wofs = 0 := rfl
    have h := bup_roll_window_zero bs (Bup.init cb) (by rw [hwofs0]; omega) hz
    refine h.2 _ ?_ ?_
    · rw [h.1]
    · rw [h.1, hwofs0]; omega

/-- Claim C4, witness: the update formula, window write, offset advance and
digest packing at a concrete state and byte, and a zero eviction after two
rolls from a fresh engine. -/
theorem c4_witness :
    (Bup.roll_byte ⟨10, 20, fun _ => 4, 3, 13⟩ 7).s1 =
      (10 + 7 + (2 ^ 64 - (fun _ : Nat => 4) 3 % 2 ^ 64)) % 2 ^ 64 ∧
    (Bup.roll_byte ⟨10, 20, fun _ => 4, 3, 13⟩ 7).s2 =
      (20 + (Bup.roll_byte ⟨10, 20, fun _ => 4, 3, 13⟩ 7).s1 +
        (2 ^ 64 - 64 * ((fun _ : Nat => 4) 3 + 31) % 2 ^ 64)) % 2 ^ 64 ∧
    (Bup.roll_byte ⟨10, 20, fun _ => 4, 3, 13⟩ 7).window 3 = 7 ∧
    (∀ j, j ≠ 3 → (Bup.roll_byte ⟨10, 20, fun _ => 4, 3, 13⟩ 7).window j =
      (fun _ : Nat => 4) j) ∧
    (Bup.roll_byte ⟨10, 20, fun _ => 4, 3, 13⟩ 7).wofs = (3 + 1) % 64 ∧
    Bup.digest ⟨10, 20, fun _ => 4, 3, 13⟩ = 10 % 2 ^ 16 * 2 ^ 16 + 20 % 2 ^ 16 ∧
    Bup.digest ⟨10, 20, fun _ => 4, 3, 13⟩ < 2 ^ 32 ∧
    (Bup.roll_bytes (Bup.init 13) [9, 8]).window
      (Bup.roll_bytes (Bup.init 13) [9, 8]).wofs = 0 :=
  c4_theorem ⟨10, 20, fun _ => 4, 3, 13⟩ 7 13 [9, 8] (by norm_num)

/-! ### Scanning-loop lemmas for `find_chunk` -/

/-- If the `Bup` scan finds no boundary, the final state is the start state
rolled through every byte of the buffer. -/
theorem bup_find_idx_none :
    ∀ (buf : List Nat) (s t : Bup.State),
      Bup.find_chunk_idx s buf = (none, t) → t = Bup.roll_bytes s buf := by
  intro buf
  induction buf with
  | nil =>
    intro s t h
    simp only [Bup.find_chunk_idx] at h
    exact (congrArg Prod.snd h).symm
  | cons b rest ih =>
    intro s t h
    simp only [Bup.find_chunk_idx] at h
    by_cases hb : Bup.boundary (Bup.roll_byte s b) = true
    · rw [if_pos hb] at h
      exact absurd (congrArg Prod.fst h) (by simp)
    · rw [if_neg hb] at h
      rcases h2 : Bup.find_chunk_idx (Bup.roll_byte s b) rest with ⟨o, u⟩
      rw [h2] at h
      cases o with
      | some i => exact absurd (congrArg Prod.fst h) (by simp)
      | none =>
        have ht : t = u := (congrArg Prod.snd h).symm
        rw [ht]
        exact ih (Bup.roll_byte s b) u h2

/-- If the `Bup` scan reports a boundary at offset `i`, then `i` is in
range, the boundary predicate holds on the state rolled through
`buf[0..=i]`, fails at every earlier index, and the returned state is the
reset of the matched state. -/
theorem bup_find_idx_some :
    ∀ (buf : List Nat) (s : Bup.State) (i : Nat) (t : Bup.State),
      Bup.find_chunk_idx s buf = (some i, t) →
      i < buf.length ∧
      Bup.boundary (Bup.roll_bytes s (buf.take (i + 1))) = true ∧
      (∀ j, j < i → Bup.boundary (Bup.roll_bytes s (buf.take (j + 1))) = false) ∧
      t = Bup.reset (Bup.roll_bytes s (buf.take (i + 1))) := by
  intro buf
  induction buf with
  | nil =>
    intro s i t h
    simp only [Bup.find_chunk_idx] at h
    exact absurd (congrArg Prod.fst h) (by simp)
  | cons b rest ih =>
    intro s i t h
    simp only [Bup.find_chunk_idx] at h
    by_cases hb : Bup.boundary (Bup.roll_byte s b) = true
    · rw [if_pos hb] at h
      have hi : i = 0 := by
        have := congrArg Prod.fst h
        simp at this
        omega
      have ht : t = Bup.reset (Bup.roll_byte s b) := (congrArg Prod.snd h).symm
      subst hi
      refine ⟨by simp, ?_, fun j hj => absurd hj (by omega), ?_⟩
      · simpa [Bup.roll_bytes] using hb
      · simpa [Bup.roll_bytes] using ht
    · rw [if_neg hb] at h
      rcases h2 : Bup.find_chunk_idx (Bup.roll_byte s b) rest with ⟨o, u⟩
      rw [h2] at h
      cases o with
      | none => exact absurd (congrArg Prod.fst h) (by simp)
      | some i' =>
        have hi : i = i' + 1 := by
          have := congrArg Prod.fst h
          simp at this
          omega
        have ht : t = u := (congrArg Prod.snd h).symm
        subst hi
        obtain ⟨ih1, ih2, ih3, ih4⟩ := ih (Bup.roll_byte s b) i' u h2
        have hroll : ∀ l : List Nat,
            Bup.roll_bytes s (b :: l) = Bup.roll_bytes (Bup.roll_byte s b) l :=
          fun l => rfl
        refine ⟨by simp; omega, ?_, ?_, ?_⟩
        · rw [List.take_succ_cons, hroll]
          exact ih2
        · intro j hj
          cases j with
          | zero =>
            simpa [Bup.roll_bytes] using (Bool.not_eq_true _).mp hb
          | succ j' =>
            rw [List.take_succ_cons, hroll]
            exact ih3 j' (by omega)
        · rw [ht, List.take_succ_cons, hroll]
          exact ih4

/-- If the `Gear` scan (with table `g`, configuration `cb`, mask `msk`,
starting digest `d`) finds no boundary, the final state carries the digest
rolled through every byte. -/
theorem gear_find_aux_none :
    ∀ (buf : List Nat) (g : Gear.Table) (cb msk d : Nat) (t : Gear.State),
      Gear.find_chunk_idx_aux g cb msk d buf = (none, t) →
      t = Gear.roll_bytes g ⟨d, cb⟩ buf := by
  intro buf
  induction buf with
  | nil =>
    intro g cb msk d t h
    simp only [Gear.find_chunk_idx_aux] at h
    exact (congrArg Prod.snd h).symm
  | cons b rest ih =>
    intro g cb msk d t h
    simp only [Gear.find_chunk_idx_aux] at h
    by_cases hb : (((d <<< 1) % 2 ^ 64 + g b) % 2 ^ 64 &&& msk == 0) = true
    · rw [if_pos hb] at h
      exact absurd (congrArg Prod.fst h) (by simp)
    · rw [if_neg hb] at h
      rcases h2 : Gear.find_chunk_idx_aux g cb msk (((d <<< 1) % 2 ^ 64 + g b) % 2 ^ 64) rest
        with ⟨o, u⟩
      rw [h2] at h
      cases o with
      | some i => exact absurd (congrArg Prod.fst h) (by simp)
      | none =>
        have ht : t = u := (congrArg Prod.snd h).symm
        rw [ht]
        exact ih g cb msk _ u h2

/-- If the `Gear` scan reports a boundary at offset `i`, then `i` is in
range, the rolled digest masks to zero there and at no earlier index, and
the returned state is the reset of the matched state. -/
theorem gear_find_aux_some :
    ∀ (buf : List Nat) (g : Gear.Table) (cb msk d i : Nat) (t : Gear.State),
      Gear.find_chunk_idx_aux g cb msk d buf = (some i, t) →
      i < buf.length ∧
      ((Gear.roll_bytes g ⟨d, cb⟩ (buf.take (i + 1))).digest &&& msk == 0) = true ∧
      (∀ j, j < i →
        ((Gear.roll_bytes g ⟨d, cb⟩ (buf.take (j + 1))).digest &&& msk == 0) = false) ∧
      t = Gear.reset (Gear.roll_bytes g ⟨d, cb⟩ (buf.take (i + 1))) := by
  intro buf
  induction buf with
  | nil =>
    intro g cb msk d i t h
    simp only [Gear.find_chunk_idx_aux] at h
    exact absurd (congrArg Prod.fst h) (by simp)
  | cons b rest ih =>
    intro g cb msk d i t h
    simp only [Gear.find_chunk_idx_aux] at h
    have hstate : Gear.roll_byte g ⟨d, cb⟩ b =
        (⟨((d <<< 1) % 2 ^ 64 + g b) % 2 ^ 64, cb⟩ : Gear.State) := rfl
    by_cases hb : (((d <<< 1) % 2 ^ 64 + g b) % 2 ^ 64 &&& msk == 0) = true
    · rw [if_pos hb] at h
      have hi : i = 0 := by
        have := congrArg Prod.fst h
        simp at this
        omega
      have ht : t = Gear.reset ⟨((d <<< 1) % 2 ^ 64 + g b) % 2 ^ 64, cb⟩ :=
        (congrArg Prod.snd h).symm
      subst hi
      refine ⟨by simp, ?_, fun j hj => absurd hj (by omega), ?_⟩
      · simpa [Gear.roll_bytes, hstate] using hb
      · simpa [Gear.roll_bytes, hstate] using ht
    · rw [if_neg hb] at h
      rcases h2 : Gear.find_chunk_idx_aux g cb msk (((d <<< 1) % 2 ^ 64 + g b) % 2 ^ 64) rest
        with ⟨o, u⟩
      rw [h2] at h
      cases o with
      | none => exact absurd (congrArg Prod.fst h) (by simp)
      | some i' =>
        have hi : i = i' + 1 := by
          have := congrArg Prod.fst h
          simp at this
          omega
        have ht : t = u := (congrArg Prod.snd h).symm
        subst hi
        obtain ⟨ih1, ih2, ih3, ih4⟩ := ih g cb msk _ i' u h2
        have hroll : ∀ l : List Nat,
            Gear.roll_bytes g (⟨d, cb⟩ : Gear.State) (b :: l) =
              Gear.roll_bytes g (⟨((d <<< 1) % 2 ^ 64 + g b) % 2 ^ 64, cb⟩ : Gear.State) l :=
          fun l => rfl
        refine ⟨by simp; omega, ?_, ?_, ?_⟩
        · rw [List.take_succ_cons, hroll]
          exact ih2
        · intro j hj
          cases j with
          | zero =>
            simpa [Gear.roll_bytes, hstate] using (Bool.not_eq_true _).mp hb
          | succ j' =>
            rw [List.take_succ_cons, hroll]
            exact ih3 j' (by omega)
        · rw [ht, List.take_succ_cons, hroll]
          exact ih4

/-- Rolling preserves the `chunk_bits` configuration of a `Gear` state. -/
theorem gear_roll_bytes_chunk_bits (g : Gear.Table) (s : Gear.State)
    (l : List Nat) : (Gear.roll_bytes g s l).chunk_bits = s.chunk_bits := by
  rw [Gear.roll_bytes_digest]

/-! ### Claim C2 -/

/-- Claim C2, counterexample: calling `Bup::find_chunk` on an engine with
`chunk_bits = 2` that has already rolled the byte `1` reports a boundary at
offset `0` with prefix `[1]`, yet rolling that prefix alone from a fresh
engine with the same `chunk_bits` does NOT satisfy the boundary predicate
at its last byte, contradicting the claim as stated. -/
theorem c2_counterexample :
    (Bup.find_chunk (Bup.roll_byte (Bup.init 2) 1) [1]).1 = some ([1], []) ∧
    Bup.boundary (Bup.roll_bytes (Bup.init 2) [1]) = false := by
  constructor
  · decide
  · decide

/-- Claim C2 (amended): for both engines, a `find_chunk` call reporting a
boundary at offset `i` returns exactly the split
`(buf[0..=i], buf[i+1..])` whose lengths sum to the buffer length, the
boundary predicate holds at `i` and at no strictly earlier index (over the
states actually rolled from the calling state), the engine is reset after
the match, and — provided the engine was freshly constructed (or just
reset) when the call was made — the digest obtained by rolling the prefix
alone from a fresh engine with the same `chunk_bits` satisfies the boundary
predicate at its last byte. -/
theorem c2_theorem (s : Bup.State) (buf : List Nat) (i : Nat) (t : Bup.State)
    (g : Gear.Table) (gs : Gear.State) (gbuf : List Nat) (gi : Nat)
    (gt : Gear.State)
    (hB : Bup.find_chunk_idx s buf = (some i, t))
    (hG : Gear.find_chunk_idx g gs gbuf = (some gi, gt)) :
    i < buf.length ∧
    Bup.find_chunk s buf = (some (buf.take (i + 1), buf.drop (i + 1)), t) ∧
    (buf.take (i + 1)).length + (buf.drop (i + 1)).length = buf.length ∧
    Bup.boundary (Bup.roll_bytes s (buf.take (i + 1))) = true ∧
    (∀ j, j < i → Bup.boundary (Bup.roll_bytes s (buf.take (j + 1))) = false) ∧
    t = Bup.reset (Bup.roll_bytes s (buf.take (i + 1))) ∧
    (s = Bup.init s.chunk_bits →
      Bup.boundary (Bup.roll_bytes (Bup.init s.chunk_bits) (buf.take (i + 1))) = true) ∧
    gi < gbuf.length ∧
    Gear.find_chunk g gs gbuf =
      (some (gbuf.take (gi + 1), gbuf.drop (gi + 1)), gt) ∧
    (gbuf.take (gi + 1)).length + (gbuf.drop (gi + 1)).length = gbuf.length ∧
    Gear.boundary (Gear.roll_bytes g gs (gbuf.take (gi + 1))) = true ∧
    (∀ j, j < gi → Gear.boundary (Gear.roll_bytes g gs (gbuf.take (j + 1))) = false) ∧
    gt = Gear.reset (Gear.roll_bytes g gs (gbuf.take (gi + 1))) ∧
    (gs = Gear.init gs.chunk_bits →
      Gear.boundary (Gear.roll_bytes g (Gear.init gs.chunk_bits) (gbuf.take (gi + 1))) = true) := by
  obtain ⟨h1, h2, h3, h4⟩ := bup_find_idx_some buf s i t hB
  have hG' : Gear.find_chunk_idx_aux g gs.chunk_bits (Gear.mask gs.chunk_bits)
      gs.digest gbuf = (some gi, gt) := hG
  obtain ⟨g1, g2, g3, g4⟩ :=
    gear_find_aux_some gbuf g gs.chunk_bits (Gear.mask gs.chunk_bits) gs.digest gi gt hG'
  have heta : (⟨gs.digest, gs.chunk_bits⟩ : Gear.State) = gs := rfl
  rw [heta] at g2 g3 g4
  have hbd : ∀ l : List Nat,
      Gear.boundary (Gear.roll_bytes g gs l) =
        ((Gear.roll_bytes g gs l).digest &&& Gear.mask gs.chunk_bits == 0) := by
    intro l
    unfold Gear.boundary
    rw [gear_roll_bytes_chunk_bits]
  have hfcB : Bup.find_chunk s buf =
      (some (buf.take (i + 1), buf.drop (i + 1)), t) := by
    unfold Bup.find_chunk
    rw [hB]
  have hfcG : Gear.find_chunk g gs gbuf =
      (some (gbuf.take (gi + 1), gbuf.drop (gi + 1)), gt) := by
    unfold Gear.find_chunk
    rw [hG]
  refine ⟨h1, hfcB, ?_, h2, h3, h4, fun hf => by rw [← hf]; exact h2,
    g1, hfcG, ?_, ?_, ?_, g4, ?_⟩
  · simp [List.length_take, List.length_drop]
    omega
  · simp [List.length_take, List.length_drop]
    omega
  · rw [hbd]
    exact g2
  · intro j hj
    rw [hbd]
    exact g3 j hj
  · intro hf
    rw [← hf, hbd]
    exact g2

/-- Claim C2, witness: with `chunk_bits = 0` the `Bup` predicate matches the
first byte, and with an all-zero table the `Gear` predicate matches the
first byte; in both cases the rolled prefix satisfies the boundary
predicate. -/
theorem c2_witness :
    Bup.boundary (Bup.roll_bytes (Bup.init 0) (List.take (0 + 1) [5])) = true ∧
    Gear.boundary
      (Gear.roll_bytes (fun _ => 0) (Gear.init 13) (List.take (0 + 1) [9])) = true := by
  have h := c2_theorem (Bup.init 0) [5] 0 (Bup.reset (Bup.roll_byte (Bup.init 0) 5))
    (fun _ => 0) (Gear.init 13) [9] 0 (Gear.reset ⟨0, 13⟩) rfl rfl
  obtain ⟨-, -, -, hb, -, -, -, -, -, -, hg, -, -, -⟩ := h
  exact ⟨hb, hg⟩

/-! ### Claim C6 -/

/-- Claim C6: for both engines, a `find_chunk` call that scans the whole
buffer without a boundary returns `none` and leaves the engine state
exactly as if every byte of the buffer had been rolled in order; in
particular `find_chunk` on the empty buffer returns `none` with the state
unchanged. -/
theorem c6_theorem (s t : Bup.State) (buf : List Nat) (g : Gear.Table)
    (gs gt : Gear.State) (gbuf : List Nat)
    (hB : Bup.find_chunk s buf = (none, t))
    (hG : Gear.find_chunk g gs gbuf = (none, gt)) :
    t = Bup.roll_bytes s buf ∧
    gt = Gear.roll_bytes g gs gbuf ∧
    Bup.find_chunk s [] = (none, s) ∧
    Gear.find_chunk g gs [] = (none, gs) := by
  refine ⟨?_, ?_, rfl, rfl⟩
  · unfold Bup.find_chunk at hB
    rcases h2 : Bup.find_chunk_idx s buf with ⟨o, u⟩
    rw [h2] at hB
    cases o with
    | some i => exact absurd (congrArg Prod.fst hB) (by simp)
    | none =>
      have ht : t = u := (congrArg Prod.snd hB).symm
      rw [ht]
      exact bup_find_idx_none buf s u h2
  · unfold Gear.find_chunk Gear.find_chunk_idx at hG
    rcases h2 : Gear.find_chunk_idx_aux g gs.chunk_bits (Gear.mask gs.chunk_bits)
      gs.digest gbuf with ⟨o, u⟩
    rw [h2] at hG
    cases o with
    | some i => exact absurd (congrArg Prod.fst hG) (by simp)
    | none =>
      have ht : gt = u := (congrArg Prod.snd hG).symm
      rw [ht]
      exact gear_find_aux_none gbuf g gs.chunk_bits (Gear.mask gs.chunk_bits)
        gs.digest u h2

/-- Claim C6, witness: concrete boundary-free calls (a single byte that does
not match for either engine) and the empty-buffer behaviour. -/
theorem c6_witness :
    Bup.find_chunk (Bup.init 13) [] = (none, Bup.init 13) ∧
    Gear.find_chunk (fun _ => 2 ^ 63) (Gear.init 13) [] =
      (none, Gear.init 13) := by
  have hG : Gear.find_chunk (fun _ => 2 ^ 63) (Gear.init 13) [0] =
      (none, Gear.roll_bytes (fun _ => 2 ^ 63) (Gear.init 13) [0]) := by
    decide
  have h := c6_theorem (Bup.init 13) (Bup.roll_bytes (Bup.init 13) [0]) [0]
    (fun _ => 2 ^ 63) (Gear.init 13)
    (Gear.roll_bytes (fun _ => 2 ^ 63) (Gear.init 13) [0]) [0] rfl hG
  exact ⟨h.2.2.1, h.2.2.2⟩

/-! ### Claim C9 -/

/-- The scanning loops of `Gear::find_chunk` and `Gear::find_chunk_mask`
coincide for equal masks. -/
theorem gear_idx_eq_mask_aux :
    ∀ (buf : List Nat) (g : Gear.Table) (cb msk d : Nat),
      Gear.find_chunk_idx_aux g cb msk d buf =
        Gear.find_chunk_mask_aux g cb msk d buf := by
  intro buf
  induction buf with
  | nil => intro g cb msk d; rfl
  | cons b rest ih =>
    intro g cb msk d
    simp only [Gear.find_chunk_idx_aux, Gear.find_chunk_mask_aux]
    rw [ih]

/-- The scanning loop of `Gear::find_chunk` coincides with that of
`Gear::find_chunk_edge_cond` applied to the mask-test predicate. -/
theorem gear_idx_eq_edge_aux :
    ∀ (buf : List Nat) (g : Gear.Table) (cb msk d : Nat),
      Gear.find_chunk_idx_aux g cb msk d buf =
        Gear.find_chunk_edge_cond_aux g cb
          (fun e => e.digest &&& msk == 0) d buf := by
  intro buf
  induction buf with
  | nil => intro g cb msk d; rfl
  | cons b rest ih =>
    intro g cb msk d
    simp only [Gear.find_chunk_idx_aux, Gear.find_chunk_edge_cond_aux]
    rw [ih]

/-- Claim C9: for every table, starting state and buffer, `Gear::find_chunk`
behaves identically to `find_chunk_mask` with the default mask
`!0 << (64 - chunk_bits)` and to `find_chunk_edge_cond` with the predicate
testing that masked digest for zero: same returned split and same final
state (reset on match, rolled-through on exhaustion). -/
theorem c9_theorem (g : Gear.Table) (s : Gear.State) (buf : List Nat) :
    Gear.find_chunk g s buf =
      Gear.find_chunk_mask g s (Gear.mask s.chunk_bits) buf ∧
    Gear.find_chunk g s buf =
      Gear.find_chunk_edge_cond g s
        (fun e => e.digest &&& Gear.mask s.chunk_bits == 0) buf := by
  constructor
  · unfold Gear.find_chunk Gear.find_chunk_idx Gear.find_chunk_mask
    rw [gear_idx_eq_mask_aux]
  · unfold Gear.find_chunk Gear.find_chunk_idx Gear.find_chunk_edge_cond
    rw [gear_idx_eq_edge_aux]

/-- Claim C9, witness: the three entry points agree on a concrete table,
state and buffer. -/
theorem c9_witness :
    Gear.find_chunk (fun _ => 1) ⟨5, 3⟩ [2, 4] =
      Gear.find_chunk_mask (fun _ => 1) ⟨5, 3⟩ (Gear.mask 3) [2, 4] ∧
    Gear.find_chunk (fun _ => 1) ⟨5, 3⟩ [2, 4] =
      Gear.find_chunk_edge_cond (fun _ => 1) ⟨5, 3⟩
        (fun e => e.digest &&& Gear.mask 3 == 0) [2, 4] :=
  c9_theorem (fun _ => 1) ⟨5, 3⟩ [2, 4]

/-! ### Claim C10 -/

/-- List-backed variant of the `Bup` state, carrying the window as a
fixed-length list so that array accesses can be bounds-checked. -/
structure BupListState where
  s1 : Nat
  s2 : Nat
  window : List Nat
  wofs : Nat
  chunk_bits : Nat

/-- Abstraction of the list-backed `Bup` state to the reference state. -/
def bupAbs (s : BupListState) : Bup.State :=
  ⟨s.s1, s.s2, fun j => s.window.getD j 0, s.wofs, s.chunk_bits⟩

/-- Checked-indexing embedding of `Bup::roll_byte`: the window read is
guarded by a bounds check, and `none` is the out-of-bounds branch. -/
def bupRollByteChecked (s : BupListState) (b : Nat) : Option BupListState :=
  (s.window.get? s.wofs).map fun prevch =>
    let t := Bup.add (bupAbs s) prevch b
    ⟨t.s1, t.s2, s.window.set s.wofs b, (s.wofs + 1) % 64, s.chunk_bits⟩

/-- Checked-indexing embedding of `Gear::roll_byte` for a table held as a
list of 256 entries: the table lookup is guarded by a bounds check. -/
def gearRollByteChecked (gl : List Nat) (s : Gear.State) (b : Nat) :
    Option Gear.State :=
  (gl.get? b).map fun v =>
    { s with digest := ((s.digest <<< 1) % 2 ^ 64 + v) % 2 ^ 64 }

/-- Claim C10: every unchecked array access is in range.  For `Bup`, if
`wofs < 64` (the window length) then the checked `roll_byte` never takes
its out-of-bounds branch, preserves the invariant `wofs < 64` (the offset
advances modulo 64, and it holds at construction, after reset, and is kept
by every roll), and agrees with the unchecked embedding.  For `Gear`, a
byte index into the 256-entry table is always in range and the checked
lookup agrees with the unchecked embedding. -/
theorem c10_theorem (s : BupListState) (b : Nat) (gl : List Nat)
    (gs : Gear.State) (gb : Nat)
    (hw : s.window.length = 64) (hofs : s.wofs < 64)
    (hgl : gl.length = 256) (hgb : gb < 256) :
    (∃ s', bupRollByteChecked s b = some s' ∧
      s'.window.length = 64 ∧ s'.wofs < 64 ∧
      bupAbs s' = Bup.roll_byte (bupAbs s) b) ∧
    (∀ cb, (Bup.init cb).wofs < 64) ∧
    (∀ u : Bup.State, (Bup.reset u).wofs < 64) ∧
    (∀ (u : Bup.State) (c : Nat), (Bup.roll_byte u c).wofs < 64) ∧
    gearRollByteChecked gl gs gb =
      some (Gear.roll_byte (fun i => gl.getD i 0) gs gb) := by
  have hlt : s.wofs < s.window.length := by omega
  have hv : s.window.get? s.wofs = some (s.window.getD s.wofs 0) := by
    simp [List.getElem?_eq_getElem hlt]
  refine ⟨?_, fun cb => by norm_num [Bup.init, Bup.default], fun u => by
    norm_num [Bup.reset, Bup.default], fun u c => ?_, ?_⟩
  · refine ⟨_, by rw [bupRollByteChecked, hv]; rfl, by simp [hw], ?_, ?_⟩
    · show (s.wofs + 1) % 64 < 64
      omega
    · show bupAbs ⟨(Bup.add (bupAbs s) (s.window.getD s.wofs 0) b).s1,
        (Bup.add (bupAbs s) (s.window.getD s.wofs 0) b).s2,
        s.window.set s.wofs b, (s.wofs + 1) % 64, s.chunk_bits⟩ =
        Bup.roll_byte (bupAbs s) b
      unfold Bup.roll_byte
      have hpc : (bupAbs s).window (bupAbs s).wofs = s.window.getD s.wofs 0 := rfl
      rw [hpc]
      unfold bupAbs
      have hwofs : (s.wofs + 1) % 64 = (s.wofs + 1) % Bup.WINDOW_SIZE := rfl
      congr 1
      funext j
      by_cases hj : j = s.wofs
      · subst hj
        simp [List.getD_eq_getElem?_getD, List.getElem?_set_self hlt]
      · simp [List.getD_eq_getElem?_getD,
          List.getElem?_set_ne (fun h => hj h.symm), hj]
  · show (u.wofs + 1) % Bup.WINDOW_SIZE < 64
    have : Bup.WINDOW_SIZE = 64 := rfl
    rw [this]
    omega
  · have hbv : gl.get? gb = some (gl.getD gb 0) := by
      have : gb < gl.length := by omega
      simp [List.getElem?_eq_getElem this]
    rw [gearRollByteChecked, hbv]
    rfl

/-- Claim C10, witness: the checked embeddings succeed and agree with the
unchecked ones on a concrete in-range state, byte and table. -/
theorem c10_witness :
    (∃ s', bupRollByteChecked ⟨1984, 124992, List.replicate 64 0, 0, 13⟩ 5 = some s' ∧
      s'.window.length = 64 ∧ s'.wofs < 64 ∧
      bupAbs s' = Bup.roll_byte (bupAbs ⟨1984, 124992, List.replicate 64 0, 0, 13⟩) 5) ∧
    (∀ cb, (Bup.init cb).wofs < 64) ∧
    (∀ u : Bup.State, (Bup.reset u).wofs < 64) ∧
    (∀ (u : Bup.State) (c : Nat), (Bup.roll_byte u c).wofs < 64) ∧
    gearRollByteChecked (List.replicate 256 9) ⟨0, 13⟩ 200 =
      some (Gear.roll_byte (fun i => (List.replicate 256 9).getD i 0) ⟨0, 13⟩ 200) :=
  c10_theorem ⟨1984, 124992, List.replicate 64 0, 0, 13⟩ 5 (List.replicate 256 9)
    ⟨0, 13⟩ 200 (by rw [List.length_replicate]) (by norm_num)
    (by rw [List.length_replicate]) (by norm_num)

/-! ### Claim C8: window invariant of the Bup rolling checksum -/

/-- Weighted checksum value: `wsum2 [b_0, …, b_{m-1}] = Σ (m - i) * b_i`,
the contribution of a window's bytes to the `s2` accumulator. -/
def wsum2 : List Nat → Nat
  | [] => 0
  | b :: rest => (rest.length + 1) * b + wsum2 rest

/-- Appending a byte reweights the checksum: every old byte gains one more
occurrence and the new byte is counted once. -/
theorem wsum2_append_single :
    ∀ (l : List Nat) (b : Nat), wsum2 (l ++ [b]) = wsum2 l + l.sum + b := by
  intro l
  induction l with
  | nil => intro b; simp [wsum2]
  | cons x r ih =>
    intro b
    simp only [List.cons_append, wsum2, List.sum_cons, List.append_eq]
    rw [ih, List.length_append, List.length_singleton]
    ring

/-- Sum bound for byte lists. -/
theorem byte_sum_le (l : List Nat) (h : ∀ x ∈ l, x < 256) :
    l.sum ≤ l.length * 255 := by
  have h' : ∀ x ∈ l, x ≤ 255 := fun x hx => by have := h x hx; omega
  have := List.sum_le_card_nsmul l 255 h'
  simpa [smul_eq_mul] using this

/-- Weighted-sum bound. -/
theorem wsum2_le (l : List Nat) : wsum2 l ≤ l.length * l.sum := by
  induction l with
  | nil => simp [wsum2]
  | cons x r ih =>
    simp only [wsum2, List.length_cons, List.sum_cons]
    have h1 : wsum2 r ≤ (r.length + 1) * r.sum :=
      le_trans ih (Nat.mul_le_mul_right _ (by omega))
    have h2 : (r.length + 1) * (x + r.sum) = (r.length + 1) * x + (r.length + 1) * r.sum := by
      ring
    omega

/-- Projection of `Bup.roll_byte` on `s1`. -/
theorem bup_roll_byte_s1 (s : Bup.State) (b : Nat) :
    (Bup.roll_byte s b).s1 =
      ((s.s1 + b) % 2 ^ 64 + (2 ^ 64 - s.window s.wofs % 2 ^ 64)) % 2 ^ 64 := rfl

/-- Projection of `Bup.roll_byte` on `s2`. -/
theorem bup_roll_byte_s2 (s : Bup.State) (b : Nat) :
    (Bup.roll_byte s b).s2 =
      ((s.s2 + (Bup.roll_byte s b).s1) % 2 ^ 64 +
        (2 ^ 64 - 64 * (s.window s.wofs + 31) % 2 ^ 64)) % 2 ^ 64 := rfl

/-- Projection of `Bup.roll_byte` on `wofs`. -/
theorem bup_roll_byte_wofs (s : Bup.State) (b : Nat) :
    (Bup.roll_byte s b).wofs = (s.wofs + 1) % 64 := rfl

/-- Projection of `Bup.roll_byte` on the window. -/
theorem bup_roll_byte_window (s : Bup.State) (b : Nat) :
    (Bup.roll_byte s b).window = fun j => if j = s.wofs then b else s.window j := rfl

/-- Field values of a freshly constructed `Bup` engine. -/
theorem bup_init_fields (cb : Nat) :
    (Bup.init cb).s1 = 1984 ∧ (Bup.init cb).s2 = 124992 ∧
    (Bup.init cb).wofs = 0 ∧ (Bup.init cb).window = (fun _ => 0) :=
  ⟨rfl, rfl, rfl, rfl⟩

/-- Full characterisation of the `Bup` state after rolling a byte list from
a fresh engine: the offset is the byte count modulo 64, the accumulators
are determined by the last `min (length, 64)` bytes with the reference
weights, the window holds exactly those bytes at their circular positions,
and the untouched slots are still zero. -/
theorem bup_roll_inv (cb : Nat) :
    ∀ bs : List Nat, (∀ x ∈ bs, x < 256) →
      (Bup.roll_bytes (Bup.init cb) bs).wofs = bs.length % 64 ∧
      (Bup.roll_bytes (Bup.init cb) bs).s1 =
        1984 + (bs.drop (bs.length - 64)).sum ∧
      (Bup.roll_bytes (Bup.init cb) bs).s2 =
        124992 + wsum2 (bs.drop (bs.length - 64)) ∧
      (∀ i, i < (bs.drop (bs.length - 64)).length →
        (Bup.roll_bytes (Bup.init cb) bs).window ((bs.length - 64 + i) % 64) =
          (bs.drop (bs.length - 64)).getD i 0) ∧
      (∀ j, bs.length ≤ j → j < 64 →
        (Bup.roll_bytes (Bup.init cb) bs).window j = 0) := by
  intro bs
  induction bs using List.reverseRecOn with
  | nil =>
    intro _
    refine ⟨rfl, rfl, rfl, ?_, ?_⟩
    · intro i hi
      simp at hi
    · intro j _ _
      rfl
  | append_singleton bs b ih =>
    intro hb
    have hbbs : ∀ x ∈ bs, x < 256 := fun x hx => hb x (List.mem_append_left _ hx)
    have hbb : b < 256 := hb b (List.mem_append_right _ (by simp))
    obtain ⟨ih1, ih2, ih3, ih4, ih5⟩ := ih hbbs
    set S := Bup.roll_bytes (Bup.init cb) bs with hS
    have hstep : Bup.roll_bytes (Bup.init cb) (bs ++ [b]) = Bup.roll_byte S b := by
      rw [hS, Bup.roll_bytes, Bup.roll_bytes, List.foldl_append]
      rfl
    set n := bs.length with hn
    have hlen : (bs ++ [b]).length = n + 1 := by simp [hn]
    rw [hstep, hlen]
    have hsum0 : bs.sum ≤ bs.length * 255 := byte_sum_le bs hbbs
    by_cases hcase : n < 64
    · -- window not yet full
      have hd0 : n - 64 = 0 := by omega
      have hd0' : n + 1 - 64 = 0 := by omega
      rw [hd0] at ih2 ih3 ih4
      rw [List.drop_zero] at ih2 ih3 ih4
      rw [hd0', List.drop_zero]
      have hn64 : n % 64 = n := Nat.mod_eq_of_lt hcase
      have hprev : S.window S.wofs = 0 := by
        rw [ih1, hn64]
        exact ih5 n le_rfl hcase
      have hsum' : bs.sum ≤ 16065 := by omega
      have hws2 : wsum2 bs ≤ 64 * bs.sum :=
        le_trans (wsum2_le bs) (Nat.mul_le_mul_right _ (by omega))
      have hws' : wsum2 bs ≤ 1044480 := by omega
      have hs1 : (Bup.roll_byte S b).s1 = 1984 + (bs ++ [b]).sum := by
        rw [bup_roll_byte_s1, hprev, ih2, List.sum_append, List.sum_singleton]
        omega
      refine ⟨?_, hs1, ?_, ?_, ?_⟩
      · rw [bup_roll_byte_wofs, ih1]
        omega
      · rw [bup_roll_byte_s2, hprev, ih3, hs1, wsum2_append_single,
          List.sum_append, List.sum_singleton]
        omega
      · intro i hi
        rw [hlen] at hi
        have hi' : i < n + 1 := hi
        have hidx : (0 + i) % 64 = i := by omega
        rw [hidx, bup_roll_byte_window]
        simp only
        rw [ih1, hn64]
        by_cases hin : i = n
        · subst hin
          rw [if_pos rfl]
          have hgd : (bs ++ [b]).getD n 0 = b := by
            rw [List.getD_eq_getElem?_getD,
              List.getElem?_append_right (by omega : bs.length ≤ n)]
            have h0 : n - bs.length = 0 := by omega
            rw [h0]
            rfl
          rw [hgd]
        · rw [if_neg hin]
          have hibs : i < bs.length := by omega
          have h4 := ih4 i (by omega)
          have hidx2 : (0 + i) % 64 = i := by omega
          rw [hidx2] at h4
          rw [h4]
          simp [List.getD_eq_getElem?_getD, List.getElem?_append_left hibs]
      · intro j hj1 hj2
        rw [bup_roll_byte_window]
        simp only
        rw [ih1, hn64, if_neg (by omega)]
        exact ih5 j (by omega) hj2
    · -- window full: one byte is evicted
      have hge : 64 ≤ n := by omega
      set suf := bs.drop (n - 64) with hsuf
      have hsl : suf.length = 64 := by
        rw [hsuf, List.length_drop]
        omega
      obtain ⟨x, rest, hxr⟩ : ∃ x rest, suf = x :: rest := by
        cases hc : suf with
        | nil => rw [hc] at hsl; simp at hsl
        | cons x r => exact ⟨x, r, rfl⟩
      have hrl : rest.length = 63 := by
        have := hsl
        rw [hxr] at this
        simp at this
        omega
      have hxmem : x < 256 := hbbs x (List.mem_of_mem_drop (hxr ▸ List.mem_cons_self x rest))
      have hrestb : ∀ y ∈ rest, y < 256 := fun y hy =>
        hbbs y (List.mem_of_mem_drop (hxr ▸ List.mem_cons_of_mem x hy))
      have hsumr : rest.sum ≤ 16065 := by
        have := byte_sum_le rest hrestb
        omega
      have hwsr : wsum2 rest ≤ 64 * rest.sum :=
        le_trans (wsum2_le rest) (Nat.mul_le_mul_right _ (by omega))
      have hwsr' : wsum2 rest ≤ 1044480 := by omega
      have hsufnew : (bs ++ [b]).drop (n + 1 - 64) = rest ++ [b] := by
        have hm : n + 1 - 64 = n - 64 + 1 := by omega
        rw [hm, List.drop_append_of_le_length (by omega), ← List.drop_drop,
          ← hsuf, hxr]
        simp
      have hprev : S.window S.wofs = x := by
        have h0 := ih4 0 (by omega)
        rw [hxr] at h0
        have hidx0 : (n - 64 + 0) % 64 = n % 64 := by omega
        rw [hidx0] at h0
        rw [ih1]
        simpa using h0
      have hih2 : S.s1 = 1984 + (x + rest.sum) := by
        rw [ih2, hxr]
        simp
      have hih3 : S.s2 = 124992 + (64 * x + wsum2 rest) := by
        rw [ih3, hxr]
        simp only [wsum2, hrl]
      have hs1 : (Bup.roll_byte S b).s1 = 1984 + (rest ++ [b]).sum := by
        rw [bup_roll_byte_s1, hprev, hih2, List.sum_append, List.sum_singleton]
        omega
      rw [hsufnew]
      refine ⟨?_, hs1, ?_, ?_, ?_⟩
      · rw [bup_roll_byte_wofs, ih1]
        omega
      · rw [bup_roll_byte_s2, hprev, hih3, hs1, wsum2_append_single,
          List.sum_append, List.sum_singleton]
        omega
      · intro i hi
        have hi64 : i < 64 := by
          simp [List.length_append, hrl] at hi
          omega
        rw [bup_roll_byte_window]
        simp only
        by_cases hi63 : i = 63
        · subst hi63
          have hidx : (n + 1 - 64 + 63) % 64 = n % 64 := by omega
          rw [hidx, ih1, if_pos rfl]
          have : (rest ++ [b]).getD 63 0 = b := by
            simp [List.getD_eq_getElem?_getD,
              List.getElem?_append_right (by omega : rest.length ≤ 63), hrl]
          rw [this]
        · have hneq : (n + 1 - 64 + i) % 64 ≠ S.wofs := by
            rw [ih1]
            omega
          rw [if_neg hneq]
          have h4 := ih4 (i + 1) (by omega)
          rw [hxr] at h4
          have hidx2 : (n - 64 + (i + 1)) % 64 = (n + 1 - 64 + i) % 64 := by omega
          rw [hidx2] at h4
          rw [h4]
          simp [List.getD_eq_getElem?_getD,
            List.getElem?_append_left (by omega : i < rest.length)]
      · intro j hj1 hj2
        exact absurd hj2 (by omega)

/-- Claim C8: after any sequence of `roll_byte` calls from a freshly
constructed `Bup` engine, `s1` and `s2` equal the values obtained by
rolling just the last `min (bytes-seen, 64)` bytes through a fresh engine,
and once the window has filled the next byte to be evicted (the one in the
slot about to be overwritten) is exactly the byte seen 64 positions ago. -/
theorem c8_theorem (cb : Nat) (bs : List Nat) (hb : ∀ x ∈ bs, x < 256) :
    (Bup.roll_bytes (Bup.init cb) bs).s1 =
      (Bup.roll_bytes (Bup.init cb) (bs.drop (bs.length - 64))).s1 ∧
    (Bup.roll_bytes (Bup.init cb) bs).s2 =
      (Bup.roll_bytes (Bup.init cb) (bs.drop (bs.length - 64))).s2 ∧
    (64 ≤ bs.length →
      (Bup.roll_bytes (Bup.init cb) bs).window
        (Bup.roll_bytes (Bup.init cb) bs).wofs = bs.getD (bs.length - 64) 0) := by
  obtain ⟨h1, h2, h3, h4, h5⟩ := bup_roll_inv cb bs hb
  set suf := bs.drop (bs.length - 64) with hsuf
  have hsufb : ∀ x ∈ suf, x < 256 := fun x hx => hb x (List.mem_of_mem_drop hx)
  obtain ⟨g1, g2, g3, g4, g5⟩ := bup_roll_inv cb suf hsufb
  have hsl : suf.length = bs.length - (bs.length - 64) := by
    rw [hsuf, List.length_drop]
  have hsl64 : suf.length ≤ 64 := by omega
  have h0 : suf.length - 64 = 0 := by omega
  rw [h0, List.drop_zero] at g2 g3
  refine ⟨?_, ?_, ?_⟩
  · rw [h2, g2]
  · rw [h3, g3]
  · intro h64
    have hpos : 0 < suf.length := by omega
    have hev := h4 0 hpos
    have hidx : (bs.length - 64 + 0) % 64 = bs.length % 64 := by omega
    rw [hidx] at hev
    rw [h1, hev]
    rw [List.getD_eq_getElem?_getD, hsuf, List.getElem?_drop,
      List.getD_eq_getElem?_getD, Nat.add_zero]

/-- Claim C8, witness: rolling 65 bytes of value 7 from a fresh engine
yields the same `s1`/`s2` as rolling only the last 64 of them, and the next
eviction is the byte seen 64 positions ago. -/
theorem c8_witness :
    (Bup.roll_bytes (Bup.init 13) (List.replicate 65 7)).s1 =
      (Bup.roll_bytes (Bup.init 13)
        ((List.replicate 65 7).drop ((List.replicate 65 7).length - 64))).s1 ∧
    (Bup.roll_bytes (Bup.init 13) (List.replicate 65 7)).s2 =
      (Bup.roll_bytes (Bup.init 13)
        ((List.replicate 65 7).drop ((List.replicate 65 7).length - 64))).s2 ∧
    (64 ≤ (List.replicate 65 7).length →
      (Bup.roll_bytes (Bup.init 13) (List.replicate 65 7)).window
        (Bup.roll_bytes (Bup.init 13) (List.replicate 65 7)).wofs =
        (List.replicate 65 7).getD ((List.replicate 65 7).length - 64) 0) :=
  c8_theorem 13 (List.replicate 65 7)
    (fun x hx => by rw [List.eq_of_mem_replicate hx]; norm_num)
